import Mathlib

/-!
Verification of the `sequence` ADT from `Sequence.cpp` (namespace
CS3358_FA2017): a cursor-based, dynamically resizable sequence container.

The C++ state is embedded shallowly: the dynamic array `data` becomes a
total function `Nat → Int` (the element type `value_type` is modelled as
`Int`; cells that the C++ code leaves uninitialised hold the arbitrary
value `0`), and the three counters `used`, `current_index`, `capacity`
become `Nat` (the C++ `size_type` is unsigned).  Each member function is
translated to a pure state transformer; the two members guarded by
`assert(is_item())` (`advance`, `current`, `remove_current`) return
`Option`, `none` standing for the program abort.

Because a function `Nat → Int` tolerates every index, out-of-bounds buffer
writes do not fail in the model; the indices each operation writes are
therefore extracted separately (`insertWrites`, `attachWrites`) so that
bounds claims about the writes can be settled faithfully.
-/

namespace CS3358

/-- State of a `sequence` object: dynamic array contents, number of items,
cursor position, allocated capacity (fields named as in the C++ source). -/
structure sequence where
  data : Nat → Int
  used : Nat
  current_index : Nat
  capacity : Nat

/-- Single array-cell assignment `f[i] = v`. -/
def upd (f : Nat → Int) (i : Nat) (v : Int) : Nat → Int :=
  fun j => if j = i then v else f j

/-- `sequence::sequence(initial_capacity)`: clamp the capacity to at least 1,
allocate (fresh cells modelled as 0), `used = 0`, `current_index = 0`. -/
def construct (initial_capacity : Nat) : sequence :=
  { data := fun _ => 0
  , used := 0
  , current_index := 0
  , capacity := if initial_capacity < 1 then 1 else initial_capacity }

/-- Copy constructor: fresh buffer of the source's capacity, first `used`
cells copied, counters copied. -/
def copyCon (s : sequence) : sequence :=
  { data := fun i => if i < s.used then s.data i else 0
  , used := s.used
  , current_index := s.current_index
  , capacity := s.capacity }

/-- `operator=`: the target becomes a deep copy of the source (fresh buffer
of the source's capacity, first `used` cells copied, counters copied).
Self-assignment returns the object unchanged, which coincides with the
copy path on the abstract state. -/
def assign (_target source : sequence) : sequence :=
  { data := fun i => if i < source.used then source.data i else 0
  , used := source.used
  , current_index := source.current_index
  , capacity := source.capacity }

/-- `sequence::resize(new_capacity)`: clamp to at least 1, then to at least
`used`; fresh buffer with the first `used` cells copied; `used` and
`current_index` unchanged. -/
def resize (s : sequence) (new_capacity : Nat) : sequence :=
  let nc := if new_capacity < 1 then 1 else new_capacity
  { data := fun i => if i < s.used then s.data i else 0
  , used := s.used
  , current_index := s.current_index
  , capacity := if nc < s.used then s.used else nc }

/-- `sequence::is_item()`: returns `current_index != used`. -/
def is_item (s : sequence) : Bool :=
  s.current_index != s.used

/-- `sequence::size()`: returns `used`. -/
def size (s : sequence) : Nat :=
  s.used

/-- `sequence::start()`: `current_index = 0` unconditionally. -/
def start (s : sequence) : sequence :=
  { s with current_index := 0 }

/-- `sequence::advance()`: `assert(is_item())` then `current_index += 1`;
`none` models the abort on a violated precondition. -/
def advance (s : sequence) : Option sequence :=
  if is_item s then some { s with current_index := s.current_index + 1 }
  else none

/-- `sequence::current()`: `assert(is_item())` then return
`data[current_index]`. -/
def current (s : sequence) : Option Int :=
  if is_item s then some (s.data s.current_index) else none

/-- The descending shift loop
`for (index = lo + k; index > lo; --index) data[index] = data[index-1];`
unrolled as recursion on the iteration count `k`. -/
def shiftRightAux (f : Nat → Int) (lo : Nat) : Nat → (Nat → Int)
  | 0 => f
  | k + 1 => shiftRightAux (upd f (lo + k + 1) (f (lo + k))) lo k

/-- The ascending shift loop
`for (index = lo; index < lo + k; ++index) data[index] = data[index+1];`
unrolled as recursion on the iteration count `k`. -/
def shiftLeftAux (f : Nat → Int) (lo : Nat) : Nat → (Nat → Int)
  | 0 => f
  | k + 1 => shiftLeftAux (upd f lo (f (lo + 1))) (lo + 1) k

/-- Growth step shared by `insert` and `attach`:
`if (used == capacity) resize(size_type(1.25 * capacity) + 1);`.
`size_type(1.25 * capacity)` truncates the exact product `5·capacity/4`,
embedded as `Nat` floor division. -/
def growIfFull (s : sequence) : sequence :=
  if s.used = s.capacity then resize s (5 * s.capacity / 4 + 1) else s

/-- `sequence::insert(entry)`: grow if full; target index is
`current_index` when an item exists, else 0; shift loop from `used + 1`
down to the target, place `entry`, `++used`. -/
def insert (s : sequence) (entry : Int) : sequence :=
  let s1 := growIfFull s
  if ¬ is_item s1 then
    { s1 with
      current_index := 0
      data := upd (shiftRightAux s1.data 0 (s1.used + 1)) 0 entry
      used := s1.used + 1 }
  else
    { s1 with
      data := upd (shiftRightAux s1.data s1.current_index
                     (s1.used + 1 - s1.current_index)) s1.current_index entry
      used := s1.used + 1 }

/-- `sequence::attach(entry)`: grow if full; with no current item write at
`current_index` and `used++`; otherwise `current_index += 1`, shift loop
from `used + 1` down to the new `current_index`, place `entry`, `++used`. -/
def attach (s : sequence) (entry : Int) : sequence :=
  let s1 := growIfFull s
  if ¬ is_item s1 then
    { s1 with
      data := upd s1.data s1.current_index entry
      used := s1.used + 1 }
  else
    { s1 with
      current_index := s1.current_index + 1
      data := upd (shiftRightAux s1.data (s1.current_index + 1)
                     (s1.used + 1 - (s1.current_index + 1)))
                  (s1.current_index + 1) entry
      used := s1.used + 1 }

/-- `sequence::remove_current()`: `assert(is_item())`; shift loop
`for (index = current_index; index < used - 1; ++index)`, then `--used`;
`none` models the abort on a violated precondition. -/
def remove_current (s : sequence) : Option sequence :=
  if is_item s then
    some { s with
           data := shiftLeftAux s.data s.current_index
                     (s.used - 1 - s.current_index)
           used := s.used - 1 }
  else none

/-- Buffer indices written by `insert`, in program order, extracted from the
source: the shift loop writes `used + 1` down to `target + 1`, then the
entry is written at the target. -/
def insertWrites (s : sequence) : List Nat :=
  let s1 := growIfFull s
  let t := if ¬ is_item s1 then 0 else s1.current_index
  (List.range' (t + 1) (s1.used + 1 - t)).reverse ++ [t]

/-- Buffer indices written by `attach`, in program order, extracted from the
source: with no current item a single write at `current_index`; otherwise
the shift loop writes `used + 1` down to `current_index + 2`, then the
entry is written at `current_index + 1`. -/
def attachWrites (s : sequence) : List Nat :=
  let s1 := growIfFull s
  if ¬ is_item s1 then [s1.current_index]
  else (List.range' (s1.current_index + 2)
          (s1.used + 1 - (s1.current_index + 1))).reverse
       ++ [s1.current_index + 1]

/-- The representation invariant stated by the spec:
`used ≤ capacity`, `capacity ≥ 1`, `current_index ≤ used`. -/
def wf (s : sequence) : Prop :=
  s.used ≤ s.capacity ∧ 1 ≤ s.capacity ∧ s.current_index ≤ s.used

instance (s : sequence) : Decidable (wf s) := by
  unfold wf; infer_instance

/-- Logical contents of the sequence: the values at positions
`0 .. used - 1`. -/
def toList (s : sequence) : List Int :=
  (List.range s.used).map s.data

/-- States reachable from construction by the public operations. -/
inductive Reachable : sequence → Prop
  | construct (n : Nat) : Reachable (construct n)
  | copy {s : sequence} : Reachable s → Reachable (copyCon s)
  | resizeStep {s : sequence} (n : Nat) : Reachable s → Reachable (resize s n)
  | startStep {s : sequence} : Reachable s → Reachable (start s)
  | advanceStep {s t : sequence} : Reachable s → advance s = some t →
      Reachable t
  | insertStep {s : sequence} (v : Int) : Reachable s → Reachable (insert s v)
  | attachStep {s : sequence} (v : Int) : Reachable s → Reachable (attach s v)
  | removeStep {s t : sequence} : Reachable s → remove_current s = some t →
      Reachable t
  | assignStep {t s : sequence} : Reachable t → Reachable s →
      Reachable (assign t s)

/-- `start()` followed by `n` calls to `advance()`, propagating the abort. -/
def advanceN (s : sequence) : Nat → Option sequence
  | 0 => some s
  | k + 1 => (advanceN s k).bind advance

/-- Concrete state `sequence s(2); s.insert(5);`:
`used = 1`, `current_index = 0`, `capacity = 2`, contents `[5]`. -/
def demo : sequence :=
  insert (construct 2) 5

/-- The state `demo` followed by `attach(7)`:
`used = 2`, `current_index = 1`, `capacity = 2`, contents `[5, 7]`. -/
def demo2 : sequence :=
  attach demo 7

/-- Concrete state `sequence s(1); s.insert(5);`: a full buffer
(`used = 1 = capacity`), so the next `insert`/`attach` grows it. -/
def fullState : sequence :=
  insert (construct 1) 5

/-! ### Loop characterizations -/

lemma shiftRightAux_spec (f : Nat → Int) (lo k : Nat) : ∀ j,
    shiftRightAux f lo k j = if lo < j ∧ j ≤ lo + k then f (j - 1) else f j := by
  induction k generalizing f with
  | zero =>
    intro j
    have h : ¬ (lo < j ∧ j ≤ lo) := by omega
    simp [shiftRightAux, h]
  | succ k ih =>
    intro j
    rw [shiftRightAux, ih]
    by_cases h : lo < j ∧ j ≤ lo + k
    · have h1 : lo < j ∧ j ≤ lo + (k + 1) := by omega
      have h2 : ¬ (j - 1 = lo + k + 1) := by omega
      simp [h, h1, upd, h2]
    · by_cases h3 : j = lo + k + 1
      · subst h3
        have c2 : lo < lo + k + 1 ∧ lo + k + 1 ≤ lo + (k + 1) := by omega
        have h4 : lo + k + 1 - 1 = lo + k := by omega
        simp [h, c2, upd, h4]
      · have h1 : ¬ (lo < j ∧ j ≤ lo + (k + 1)) := by omega
        simp [h, h1, upd, h3]

lemma shiftLeftAux_spec (f : Nat → Int) (lo k : Nat) : ∀ j,
    shiftLeftAux f lo k j = if lo ≤ j ∧ j < lo + k then f (j + 1) else f j := by
  induction k generalizing f lo with
  | zero =>
    intro j
    have h : ¬ (lo ≤ j ∧ j < lo) := by omega
    simp [shiftLeftAux, h]
  | succ k ih =>
    intro j
    rw [shiftLeftAux, ih]
    by_cases h : lo + 1 ≤ j ∧ j < lo + 1 + k
    · have h1 : lo ≤ j ∧ j < lo + (k + 1) := by omega
      have h2 : ¬ (j + 1 = lo) := by omega
      simp [h, h1, upd, h2]
    · by_cases h3 : j = lo
      · have h1 : lo ≤ j ∧ j < lo + (k + 1) := by omega
        rw [if_neg h, if_pos h1, h3]
        simp [upd]
      · have h1 : ¬ (lo ≤ j ∧ j < lo + (k + 1)) := by omega
        simp [h, h1, upd, h3]

/-- Pointwise description of inserting a value at position `t` of a
`map`-over-`range` list. -/
lemma map_range_insert (f g : Nat → Int) (x : Int) (n t : Nat) (ht : t ≤ n)
    (h1 : ∀ j, j < t → g j = f j) (h2 : g t = x)
    (h3 : ∀ j, t < j → j ≤ n → g j = f (j - 1)) :
    (List.range (n + 1)).map g
      = ((List.range n).map f).take t ++ x :: ((List.range n).map f).drop t := by
  apply List.ext_getElem
  · simp only [List.length_map, List.length_range, List.length_append,
      List.length_take, List.length_cons, List.length_drop]
    omega
  · intro i hi1 hi2
    simp only [List.length_map, List.length_range] at hi1
    rw [List.getElem_map, List.getElem_range]
    have hl : (((List.range n).map f).take t).length = t := by
      simp only [List.length_take, List.length_map, List.length_range]; omega
    rcases Nat.lt_trichotomy i t with hlt | heq | hgt
    · rw [List.getElem_append_left (by rw [hl]; omega)]
      rw [List.getElem_take, List.getElem_map, List.getElem_range]
      exact h1 i hlt
    · subst heq
      rw [List.getElem_append_right (by rw [hl])]
      simp only [hl, Nat.sub_self]
      rw [List.getElem_cons_zero]
      exact h2
    · rw [List.getElem_append_right (by rw [hl]; omega)]
      simp only [hl]
      rw [List.getElem_cons, dif_neg (show ¬ (i - t = 0) by omega)]
      rw [List.getElem_drop, List.getElem_map, List.getElem_range]
      have he : t + (i - t - 1) = i - 1 := by omega
      rw [he]
      exact h3 i hgt (by omega)

/-- Pointwise description of removing the value at position `t` of a
`map`-over-`range` list. -/
lemma map_range_remove (f g : Nat → Int) (n t : Nat) (ht : t < n)
    (h1 : ∀ j, j < t → g j = f j)
    (h2 : ∀ j, t ≤ j → j < n - 1 → g j = f (j + 1)) :
    (List.range (n - 1)).map g
      = ((List.range n).map f).take t ++ ((List.range n).map f).drop (t + 1) := by
  apply List.ext_getElem
  · simp only [List.length_map, List.length_range, List.length_append,
      List.length_take, List.length_drop]
    omega
  · intro i hi1 hi2
    simp only [List.length_map, List.length_range] at hi1
    rw [List.getElem_map, List.getElem_range]
    have hl : (((List.range n).map f).take t).length = t := by
      simp only [List.length_take, List.length_map, List.length_range]; omega
    rcases Nat.lt_or_ge i t with hlt | hge
    · rw [List.getElem_append_left (by rw [hl]; omega)]
      rw [List.getElem_take, List.getElem_map, List.getElem_range]
      exact h1 i hlt
    · rw [List.getElem_append_right (by rw [hl]; omega)]
      simp only [hl]
      rw [List.getElem_drop, List.getElem_map, List.getElem_range]
      have he : t + 1 + (i - t) = i + 1 := by omega
      rw [he]
      exact h2 i hge (by omega)

/-! ### Facts about the growth step -/

lemma growIfFull_used (s : sequence) : (growIfFull s).used = s.used := by
  unfold growIfFull resize
  split <;> rfl

lemma growIfFull_current_index (s : sequence) :
    (growIfFull s).current_index = s.current_index := by
  unfold growIfFull resize
  split <;> rfl

lemma growIfFull_is_item (s : sequence) :
    is_item (growIfFull s) = is_item s := by
  unfold is_item
  rw [growIfFull_used, growIfFull_current_index]

lemma growIfFull_data (s : sequence) (j : Nat) (h : j < s.used) :
    (growIfFull s).data j = s.data j := by
  unfold growIfFull resize
  split
  · simp [h]
  · rfl

lemma growIfFull_of_ne (s : sequence) (h : ¬ s.used = s.capacity) :
    growIfFull s = s := by
  simp [growIfFull, h]

lemma growIfFull_capacity_eq (s : sequence) (h : s.used = s.capacity) :
    (growIfFull s).capacity = 5 * s.capacity / 4 + 1 := by
  have hd : s.capacity ≤ 5 * s.capacity / 4 := by omega
  have h1 : ¬ (5 * s.capacity / 4 + 1 < 1) := by omega
  have h2 : ¬ (5 * s.capacity / 4 + 1 < s.used) := by omega
  simp [growIfFull, resize, h, h1, h2]
  omega

lemma growIfFull_lt (s : sequence) (hw : s.used ≤ s.capacity) :
    (growIfFull s).used < (growIfFull s).capacity := by
  by_cases h : s.used = s.capacity
  · rw [growIfFull_used, growIfFull_capacity_eq s h]
    have : s.capacity ≤ 5 * s.capacity / 4 := by omega
    omega
  · rw [growIfFull_of_ne s h]
    omega

lemma growIfFull_cap_pos (s : sequence) (hw : 1 ≤ s.capacity) :
    1 ≤ (growIfFull s).capacity := by
  by_cases h : s.used = s.capacity
  · rw [growIfFull_capacity_eq s h]
    omega
  · rw [growIfFull_of_ne s h]
    exact hw

/-! ### Preservation of the representation invariant -/

lemma wf_construct (n : Nat) : wf (construct n) := by
  unfold wf construct
  by_cases h : n < 1
  · simp [h]
  · simp [h]
    omega

lemma wf_copyCon {s : sequence} (h : wf s) : wf (copyCon s) :=
  h

lemma wf_assign {t s : sequence} (h : wf s) : wf (assign t s) :=
  h

lemma wf_resize {s : sequence} (h : wf s) (n : Nat) : wf (resize s n) := by
  obtain ⟨h1, h2, h3⟩ := h
  simp only [wf, resize]
  split <;> split <;> omega

lemma wf_start {s : sequence} (h : wf s) : wf (start s) := by
  obtain ⟨h1, h2, h3⟩ := h
  exact ⟨h1, h2, Nat.zero_le _⟩

lemma is_item_iff {s : sequence} : is_item s = true ↔ s.current_index ≠ s.used := by
  simp [is_item]

lemma wf_advance {s t : sequence} (h : wf s) (ha : advance s = some t) : wf t := by
  obtain ⟨h1, h2, h3⟩ := h
  unfold advance at ha
  split at ha
  · next hit =>
      rw [is_item_iff] at hit
      cases ha
      refine ⟨h1, h2, ?_⟩
      show s.current_index + 1 ≤ s.used
      omega
  · cases ha

lemma wf_insert {s : sequence} (h : wf s) (x : Int) : wf (insert s x) := by
  obtain ⟨h1, h2, h3⟩ := h
  have hu := growIfFull_used s
  have hc := growIfFull_current_index s
  have hlt := growIfFull_lt s h1
  have hcap := growIfFull_cap_pos s h2
  unfold insert
  dsimp only
  split
  · refine ⟨?_, hcap, Nat.zero_le _⟩
    show (growIfFull s).used + 1 ≤ (growIfFull s).capacity
    omega
  · refine ⟨?_, hcap, ?_⟩
    · show (growIfFull s).used + 1 ≤ (growIfFull s).capacity
      omega
    · show (growIfFull s).current_index ≤ (growIfFull s).used + 1
      omega

lemma wf_attach {s : sequence} (h : wf s) (x : Int) : wf (attach s x) := by
  obtain ⟨h1, h2, h3⟩ := h
  have hu := growIfFull_used s
  have hc := growIfFull_current_index s
  have hlt := growIfFull_lt s h1
  have hcap := growIfFull_cap_pos s h2
  unfold attach
  dsimp only
  split
  · refine ⟨?_, hcap, ?_⟩
    · show (growIfFull s).used + 1 ≤ (growIfFull s).capacity
      omega
    · show (growIfFull s).current_index ≤ (growIfFull s).used + 1
      omega
  · refine ⟨?_, hcap, ?_⟩
    · show (growIfFull s).used + 1 ≤ (growIfFull s).capacity
      omega
    · show (growIfFull s).current_index + 1 ≤ (growIfFull s).used + 1
      omega

lemma wf_remove {s t : sequence} (h : wf s) (hr : remove_current s = some t) :
    wf t := by
  obtain ⟨h1, h2, h3⟩ := h
  unfold remove_current at hr
  split at hr
  · next hit =>
      rw [is_item_iff] at hit
      cases hr
      refine ⟨?_, h2, ?_⟩
      · show s.used - 1 ≤ s.capacity
        omega
      · show s.current_index ≤ s.used - 1
        omega
  · cases hr

/-! ### Characterization of `insert` -/

lemma insert_used (s : sequence) (x : Int) : (insert s x).used = s.used + 1 := by
  unfold insert
  dsimp only
  split
  · exact congrArg (· + 1) (growIfFull_used s)
  · exact congrArg (· + 1) (growIfFull_used s)

lemma insert_capacity (s : sequence) (x : Int) :
    (insert s x).capacity = (growIfFull s).capacity := by
  unfold insert
  dsimp only
  split
  · rfl
  · rfl

lemma insert_current_index (s : sequence) (x : Int) :
    (insert s x).current_index
      = (if is_item s then s.current_index else 0) := by
  unfold insert
  dsimp only
  split
  · next h =>
      rw [growIfFull_is_item] at h
      rw [if_neg h]
  · next h =>
      rw [growIfFull_is_item, Decidable.not_not] at h
      rw [if_pos h]
      exact growIfFull_current_index s

lemma insert_data_at (s : sequence) (x : Int) :
    (insert s x).data (insert s x).current_index = x := by
  unfold insert
  dsimp only
  split
  · simp [upd]
  · simp [upd]

lemma current_insert (s : sequence) (x : Int) (hw : wf s) :
    current (insert s x) = some x := by
  obtain ⟨h1, h2, h3⟩ := hw
  have hne : (insert s x).current_index ≠ (insert s x).used := by
    rw [insert_used, insert_current_index]
    split <;> omega
  unfold current
  rw [if_pos (is_item_iff.mpr hne), insert_data_at]

lemma insert_toList (s : sequence) (x : Int) (hw : wf s) :
    toList (insert s x)
      = (toList s).take (if is_item s then s.current_index else 0)
        ++ x :: (toList s).drop (if is_item s then s.current_index else 0) := by
  obtain ⟨h1, h2, h3⟩ := hw
  have hused := growIfFull_used s
  have hcur := growIfFull_current_index s
  by_cases hit : is_item s = true
  · have hlt : s.current_index < s.used := by
      rw [is_item_iff] at hit
      omega
    rw [if_pos hit]
    have hit' : ¬ ¬ is_item (growIfFull s) = true := by
      rw [growIfFull_is_item]
      exact not_not_intro hit
    unfold insert
    dsimp only
    rw [if_neg hit']
    unfold toList
    dsimp only
    rw [hused, hcur]
    apply map_range_insert
    · omega
    · intro j hj
      have e1 : ¬ (j = s.current_index) := by omega
      have e2 : ¬ (s.current_index < j ∧
          j ≤ s.current_index + (s.used + 1 - s.current_index)) := by omega
      simp only [upd, shiftRightAux_spec, if_neg e1, if_neg e2]
      exact growIfFull_data s j (by omega)
    · simp [upd]
    · intro j hj1 hj2
      have e1 : ¬ (j = s.current_index) := by omega
      have e2 : s.current_index < j ∧
          j ≤ s.current_index + (s.used + 1 - s.current_index) := by omega
      simp only [upd, shiftRightAux_spec, if_neg e1, if_pos e2]
      exact growIfFull_data s (j - 1) (by omega)
  · rw [if_neg hit]
    have hit' : ¬ is_item (growIfFull s) = true := by
      rw [growIfFull_is_item]
      exact hit
    unfold insert
    dsimp only
    rw [if_pos hit']
    unfold toList
    dsimp only
    rw [hused]
    apply map_range_insert
    · exact Nat.zero_le _
    · intro j hj
      exact absurd hj (by omega)
    · simp [upd]
    · intro j hj1 hj2
      have e1 : ¬ (j = 0) := by omega
      have e2 : 0 < j ∧ j ≤ 0 + (s.used + 1) := by omega
      simp only [upd, shiftRightAux_spec, if_neg e1, if_pos e2]
      exact growIfFull_data s (j - 1) (by omega)

/-! ### Characterization of `attach` -/

lemma attach_used (s : sequence) (x : Int) : (attach s x).used = s.used + 1 := by
  unfold attach
  dsimp only
  split
  · exact congrArg (· + 1) (growIfFull_used s)
  · exact congrArg (· + 1) (growIfFull_used s)

lemma attach_capacity (s : sequence) (x : Int) :
    (attach s x).capacity = (growIfFull s).capacity := by
  unfold attach
  dsimp only
  split
  · rfl
  · rfl

lemma attach_current_index (s : sequence) (x : Int) :
    (attach s x).current_index
      = (if is_item s then s.current_index + 1 else s.current_index) := by
  unfold attach
  dsimp only
  split
  · next h =>
      rw [growIfFull_is_item] at h
      rw [if_neg h]
      exact growIfFull_current_index s
  · next h =>
      rw [growIfFull_is_item, Decidable.not_not] at h
      rw [if_pos h]
      exact congrArg (· + 1) (growIfFull_current_index s)

lemma attach_data_at (s : sequence) (x : Int) :
    (attach s x).data (attach s x).current_index = x := by
  unfold attach
  dsimp only
  split
  · simp [upd]
  · simp [upd]

lemma current_attach (s : sequence) (x : Int) (hw : wf s) :
    current (attach s x) = some x := by
  obtain ⟨h1, h2, h3⟩ := hw
  have hne : (attach s x).current_index ≠ (attach s x).used := by
    rw [attach_used, attach_current_index]
    by_cases hit : is_item s = true
    · rw [if_pos hit]
      have := is_item_iff.mp hit
      omega
    · rw [if_neg hit]
      omega
  unfold current
  rw [if_pos (is_item_iff.mpr hne), attach_data_at]

lemma attach_toList (s : sequence) (x : Int) (hw : wf s) :
    toList (attach s x)
      = (toList s).take (if is_item s then s.current_index + 1 else s.used)
        ++ x :: (toList s).drop
            (if is_item s then s.current_index + 1 else s.used) := by
  obtain ⟨h1, h2, h3⟩ := hw
  have hused := growIfFull_used s
  have hcur := growIfFull_current_index s
  by_cases hit : is_item s = true
  · have hlt : s.current_index < s.used := by
      rw [is_item_iff] at hit
      omega
    rw [if_pos hit]
    have hit' : ¬ ¬ is_item (growIfFull s) = true := by
      rw [growIfFull_is_item]
      exact not_not_intro hit
    unfold attach
    dsimp only
    rw [if_neg hit']
    unfold toList
    dsimp only
    rw [hused, hcur]
    apply map_range_insert
    · omega
    · intro j hj
      have e1 : ¬ (j = s.current_index + 1) := by omega
      have e2 : ¬ (s.current_index + 1 < j ∧
          j ≤ s.current_index + 1 + (s.used + 1 - (s.current_index + 1))) := by
        omega
      simp only [upd, shiftRightAux_spec, if_neg e1, if_neg e2]
      exact growIfFull_data s j (by omega)
    · simp [upd]
    · intro j hj1 hj2
      have e1 : ¬ (j = s.current_index + 1) := by omega
      have e2 : s.current_index + 1 < j ∧
          j ≤ s.current_index + 1 + (s.used + 1 - (s.current_index + 1)) := by
        omega
      simp only [upd, shiftRightAux_spec, if_neg e1, if_pos e2]
      exact growIfFull_data s (j - 1) (by omega)
  · have hce : s.current_index = s.used := by
      rw [is_item_iff] at hit
      exact Decidable.not_not.mp hit
    rw [if_neg hit]
    have hit' : ¬ is_item (growIfFull s) = true := by
      rw [growIfFull_is_item]
      exact hit
    unfold attach
    dsimp only
    rw [if_pos hit']
    unfold toList
    dsimp only
    rw [hused, hcur]
    apply map_range_insert
    · exact le_refl _
    · intro j hj
      have e1 : ¬ (j = s.current_index) := by omega
      simp only [upd, if_neg e1]
      exact growIfFull_data s j (by omega)
    · simp [upd, hce]
    · intro j hj1 hj2
      exact absurd hj1 (by omega)

/-! ### Characterization of `remove_current` -/

lemma remove_current_eq (s : sequence) (hit : is_item s = true) :
    remove_current s
      = some { s with
               data := shiftLeftAux s.data s.current_index
                         (s.used - 1 - s.current_index)
               used := s.used - 1 } := by
  unfold remove_current
  rw [if_pos hit]

lemma remove_toList (s : sequence)
    (hlt : s.current_index < s.used) :
    ∀ t, remove_current s = some t →
      toList t = (toList s).take s.current_index
                  ++ (toList s).drop (s.current_index + 1) := by
  intro t ht
  rw [remove_current_eq s (is_item_iff.mpr (by omega))] at ht
  cases ht
  unfold toList
  dsimp only
  apply map_range_remove
  · exact hlt
  · intro j hj
    have e1 : ¬ (s.current_index ≤ j ∧
        j < s.current_index + (s.used - 1 - s.current_index)) := by omega
    simp only [shiftLeftAux_spec, if_neg e1]
  · intro j hj1 hj2
    have e1 : s.current_index ≤ j ∧
        j < s.current_index + (s.used - 1 - s.current_index) := by omega
    simp only [shiftLeftAux_spec, if_pos e1]

/-! ### Traversal -/

lemma advanceN_start (s : sequence) (k : Nat) (hk : k ≤ s.used) :
    advanceN (start s) k = some { s with current_index := k } := by
  induction k with
  | zero => rfl
  | succ k ih =>
    rw [advanceN, ih (by omega)]
    show advance { s with current_index := k } = _
    have hne : is_item { s with current_index := k } = true := by
      rw [is_item_iff]
      show k ≠ s.used
      omega
    unfold advance
    rw [if_pos hne]

/-! ### The claims -/

/-- C1: FALSIFIED by the code.  The claim says that during `insert` and
`attach`, after the capacity check, every buffer write lands at an index in
`[0, used]` and never outside the allocated capacity.  On `demo`
(`used = 1`, `capacity = 2`, no growth because `used ≠ capacity`) the shift
loops of both `insert` and `attach` write index `2 = used + 1`, outside
`[0, used] = [0, 1]` and outside the capacity-2 buffer; on `fullState` the
same out-of-capacity write at index 2 happens immediately after growth to
capacity 2. -/
theorem C1_shift_writes_out_of_bounds :
    (demo.used = 1 ∧ demo.capacity = 2 ∧ demo.used ≠ demo.capacity ∧
      2 ∈ insertWrites demo ∧ ¬ (2 ≤ demo.used) ∧ ¬ (2 < demo.capacity) ∧
      2 ∈ attachWrites demo) ∧
    (fullState.used = fullState.capacity ∧
      (growIfFull fullState).capacity = 2 ∧
      2 ∈ insertWrites fullState ∧
      ¬ (2 < (growIfFull fullState).capacity)) := by
  decide

/-- C2: every state reachable from construction by the public operations
(construct, copy-construct, resize, start, advance, insert, attach,
remove_current, assignment) satisfies `used ≤ capacity`, `capacity ≥ 1`
and `current_index ≤ used`. -/
theorem C2_reachable_wf {s : sequence} (h : Reachable s) : wf s := by
  induction h with
  | construct n => exact wf_construct n
  | copy _ ih => exact wf_copyCon ih
  | resizeStep n _ ih => exact wf_resize ih n
  | startStep _ ih => exact wf_start ih
  | advanceStep _ ha ih => exact wf_advance ih ha
  | insertStep v _ ih => exact wf_insert ih v
  | attachStep v _ ih => exact wf_attach ih v
  | removeStep _ hr ih => exact wf_remove ih hr
  | assignStep _ _ _ ihs => exact wf_assign ihs

theorem C2_reachable_wf_witness :
    Reachable (insert (construct 2) 5) ∧ wf (insert (construct 2) 5) :=
  ⟨Reachable.insertStep 5 (Reachable.construct 2),
   C2_reachable_wf (Reachable.insertStep 5 (Reachable.construct 2))⟩

/-- C3: on an invariant-satisfying state, `insert x` places `x` at the
target index (`current_index` when a current item exists, else 0), keeping
elements before it and shifting the rest right so pre-existing order is
preserved; the cursor lands on the target so `current()` returns `x`, and
`size()` grows by exactly one. -/
theorem C3_insert_spec (s : sequence) (x : Int) (hw : wf s) :
    current (insert s x) = some x ∧
    (insert s x).current_index = (if is_item s then s.current_index else 0) ∧
    size (insert s x) = size s + 1 ∧
    toList (insert s x)
      = (toList s).take (if is_item s then s.current_index else 0)
        ++ x :: (toList s).drop (if is_item s then s.current_index else 0) :=
  ⟨current_insert s x hw, insert_current_index s x,
   by simp [size, insert_used], insert_toList s x hw⟩

theorem C3_insert_spec_witness :
    wf demo ∧
    (current (insert demo 7) = some 7 ∧
     (insert demo 7).current_index
       = (if is_item demo then demo.current_index else 0) ∧
     size (insert demo 7) = size demo + 1 ∧
     toList (insert demo 7)
       = (toList demo).take (if is_item demo then demo.current_index else 0)
         ++ 7 :: (toList demo).drop
              (if is_item demo then demo.current_index else 0)) :=
  ⟨by decide, C3_insert_spec demo 7 (by decide)⟩

/-- C4: on an invariant-satisfying state, `attach x` places `x` at the
target index (`current_index + 1` when a current item exists, else `used`,
i.e. appended at the end), preserving pre-existing order; the cursor equals
the target in both branches so `current()` returns `x`, and `size()` grows
by exactly one. -/
theorem C4_attach_spec (s : sequence) (x : Int) (hw : wf s) :
    current (attach s x) = some x ∧
    (attach s x).current_index
      = (if is_item s then s.current_index + 1 else s.used) ∧
    size (attach s x) = size s + 1 ∧
    toList (attach s x)
      = (toList s).take (if is_item s then s.current_index + 1 else s.used)
        ++ x :: (toList s).drop
            (if is_item s then s.current_index + 1 else s.used) := by
  refine ⟨current_attach s x hw, ?_, by simp [size, attach_used],
    attach_toList s x hw⟩
  rw [attach_current_index]
  by_cases hit : is_item s = true
  · simp only [if_pos hit]
  · simp only [if_neg hit]
    by_contra hne
    exact hit (is_item_iff.mpr hne)

theorem C4_attach_spec_witness :
    wf demo ∧
    (current (attach demo 7) = some 7 ∧
     (attach demo 7).current_index
       = (if is_item demo then demo.current_index + 1 else demo.used) ∧
     size (attach demo 7) = size demo + 1 ∧
     toList (attach demo 7)
       = (toList demo).take
           (if is_item demo then demo.current_index + 1 else demo.used)
         ++ 7 :: (toList demo).drop
             (if is_item demo then demo.current_index + 1 else demo.used)) :=
  ⟨by decide, C4_attach_spec demo 7 (by decide)⟩

/-- C5: on a state with a current item (`current_index < used`),
`remove_current` succeeds; `size()` drops by exactly one, the elements
after the old cursor shift one slot left (the element at
`current_index + 1 ..` closes the gap), the cursor is numerically
unchanged, and if the removed element was the last logical element
(`current_index = used - 1`) then `is_item()` is false afterwards. -/
theorem C5_remove_spec (s : sequence) (hlt : s.current_index < s.used) :
    ∃ t, remove_current s = some t ∧
      size t + 1 = size s ∧
      t.current_index = s.current_index ∧
      toList t = (toList s).take s.current_index
                  ++ (toList s).drop (s.current_index + 1) ∧
      (s.current_index = s.used - 1 → is_item t = false) := by
  have hit : is_item s = true := is_item_iff.mpr (by omega)
  refine ⟨_, remove_current_eq s hit, ?_, rfl, ?_, ?_⟩
  · show s.used - 1 + 1 = s.used
    omega
  · exact remove_toList s hlt _ (remove_current_eq s hit)
  · intro hlast
    simp [is_item, hlast]

theorem C5_remove_spec_witness :
    demo2.current_index < demo2.used ∧
    (∃ t, remove_current demo2 = some t ∧
      size t + 1 = size demo2 ∧
      t.current_index = demo2.current_index ∧
      toList t = (toList demo2).take demo2.current_index
                  ++ (toList demo2).drop (demo2.current_index + 1) ∧
      (demo2.current_index = demo2.used - 1 → is_item t = false)) :=
  ⟨by decide, C5_remove_spec demo2 (by decide)⟩

/-- C6: `advance`, `current` and `remove_current` abort (modelled as
`none`) exactly when `is_item()` is false at the call, and produce a
normal result (`isSome`) exactly when `is_item()` is true. -/
theorem C6_precondition_abort (s : sequence) :
    (advance s = none ↔ is_item s = false) ∧
    ((advance s).isSome = true ↔ is_item s = true) ∧
    (current s = none ↔ is_item s = false) ∧
    ((current s).isSome = true ↔ is_item s = true) ∧
    (remove_current s = none ↔ is_item s = false) ∧
    ((remove_current s).isSome = true ↔ is_item s = true) := by
  cases hb : is_item s <;> simp [advance, current, remove_current, hb]

/-- C7: from `start()`, the `k`-th of `used` consecutive `advance()` calls
is preceded by a `current()` returning the element at logical position
`k`, and after the `used`-th `advance()` the sequence reports
`is_item() = false`. -/
theorem C7_traversal_visits_all (s : sequence) :
    (∀ k, k < s.used →
      (advanceN (start s) k).bind current = some (s.data k)) ∧
    (∃ t, advanceN (start s) s.used = some t ∧ is_item t = false) := by
  constructor
  · intro k hk
    rw [advanceN_start s k (by omega)]
    show current { s with current_index := k } = _
    have hne : is_item { s with current_index := k } = true := by
      rw [is_item_iff]
      show k ≠ s.used
      omega
    unfold current
    rw [if_pos hne]
  · refine ⟨{ s with current_index := s.used },
      advanceN_start s s.used (le_refl _), ?_⟩
    simp [is_item]

theorem C7_traversal_visits_all_witness :
    (advanceN (start demo2) 1).bind current = some (demo2.data 1) :=
  (C7_traversal_visits_all demo2).1 1 (by decide)

/-- C8: when `used = capacity`, `insert` and `attach` first grow the
capacity to exactly `⌊1.25 · capacity⌋ + 1` (the resize argument
`size_type(1.25 * capacity) + 1`, embedded exactly as `5·capacity/4 + 1`);
when `used < capacity` the capacity is unchanged. -/
theorem C8_growth_policy (s : sequence) (x : Int) :
    (s.used = s.capacity →
      (insert s x).capacity = 5 * s.capacity / 4 + 1 ∧
      (attach s x).capacity = 5 * s.capacity / 4 + 1) ∧
    (s.used < s.capacity →
      (insert s x).capacity = s.capacity ∧
      (attach s x).capacity = s.capacity) := by
  constructor
  · intro h
    rw [insert_capacity, attach_capacity, growIfFull_capacity_eq s h]
    exact ⟨rfl, rfl⟩
  · intro h
    rw [insert_capacity, attach_capacity, growIfFull_of_ne s (by omega)]
    exact ⟨rfl, rfl⟩

theorem C8_growth_policy_witness :
    (fullState.used = fullState.capacity ∧
      (insert fullState 7).capacity = 5 * fullState.capacity / 4 + 1) ∧
    ((construct 2).used < (construct 2).capacity ∧
      (insert (construct 2) 5).capacity = (construct 2).capacity) :=
  ⟨⟨by decide, ((C8_growth_policy fullState 7).1 (by decide)).1⟩,
   ⟨by decide, ((C8_growth_policy (construct 2) 5).2 (by decide)).1⟩⟩

/-- C9: under the invariant `current_index ≤ used`, `is_item()` returns
exactly the truth value of `current_index < used`, equivalently
`current_index ≠ used`; the function reads the state and changes nothing
(it is a pure function of the state in this embedding). -/
theorem C9_is_item_spec (s : sequence) (h : s.current_index ≤ s.used) :
    (is_item s = true ↔ s.current_index < s.used) ∧
    (is_item s = true ↔ s.current_index ≠ s.used) := by
  rw [is_item_iff]
  exact ⟨by omega, Iff.rfl⟩

theorem C9_is_item_spec_witness :
    demo.current_index ≤ demo.used ∧
    (is_item demo = true ↔ demo.current_index < demo.used) :=
  ⟨by decide, (C9_is_item_spec demo (by decide)).1⟩

/-- C10: `start()` modifies only the cursor on every state (no
precondition), and `advance()` — under its own precondition, expressed by
a successful step `advance s = some t` — likewise modifies only the
cursor: `used`, `capacity` and every stored element at positions
`0 .. used - 1` are unchanged by both. -/
theorem C10_start_advance_frame (s : sequence) :
    (start s).used = s.used ∧ (start s).capacity = s.capacity ∧
    (∀ j, j < s.used → (start s).data j = s.data j) ∧
    (∀ t, advance s = some t →
      t.used = s.used ∧ t.capacity = s.capacity ∧
      (∀ j, j < s.used → t.data j = s.data j)) := by
  refine ⟨rfl, rfl, fun j _ => rfl, ?_⟩
  intro t h
  unfold advance at h
  split at h
  · cases h
    exact ⟨rfl, rfl, fun j _ => rfl⟩
  · cases h

theorem C10_start_advance_frame_witness :
    (start (construct 1)).used = (construct 1).used ∧
    advance demo = some { demo with current_index := 1 } ∧
    { demo with current_index := 1 }.used = demo.used :=
  ⟨(C10_start_advance_frame (construct 1)).1,
   by rfl,
   ((C10_start_advance_frame demo).2.2.2 _ (by rfl)).1⟩

end CS3358
